import Mathlib

/-!
Verification of the Habit-Tracker repository (`habit_tracker/habit.py`,
`habit_tracker/repo.py`, `habit.py`).

Modelling conventions:

* A calendar date is embedded as an epoch-day integer (`ℤ`).  The Python code
  works with `datetime.date` values and their fixed-format text renderings
  `DD-MM-YYYY` (`DateFmt`); `strftime`/`strptime` are mutually inverse on
  canonical strings, so sets of canonical date strings are isomorphic to
  `Finset ℤ`, with `prev`/`next` day becoming `· - 1` / `· + 1` and
  `timedelta` subtraction becoming integer subtraction.
* Where the *text* of a date matters (the SQL `done_on >= ? AND done_on <= ?`
  range filter of `HabitRepo.fetch_completions_between` compares the stored
  `DD-MM-YYYY` strings lexicographically), we project an epoch day to its
  civil triple `(day, month, year)` with `civil` and compare those triples
  lexicographically: for canonical zero-padded `DD-MM-YYYY` strings of
  four-digit years, string order is exactly lexicographic order on the
  numeric triple (day, month, year).
* Statuses returned as Python strings become the closed enumeration `St`.
* Python dicts keyed by strings become functions `String → Option _` built by
  successive pointwise updates (later writes win, exactly dict assignment).
-/

namespace HabitProof

/-! ## Date utilities

`civil z` returns the civil `(day, month, year)` of epoch day `z`
(days since 1970-01-01, proleptic Gregorian), by the standard
era/day-of-era decomposition used to embed `datetime.date` arithmetic. -/

def civil (z : ℤ) : ℤ × ℤ × ℤ :=
  let z' := z + 719468
  let era := (if 0 ≤ z' then z' else z' - 146096) / 146097
  let doe := z' - era * 146097
  let yoe := (doe - doe / 1460 + doe / 36524 - doe / 146096) / 365
  let y := yoe + era * 400
  let doy := doe - (365 * yoe + yoe / 4 - yoe / 100)
  let mp := (5 * doy + 2) / 153
  let d := doy - (153 * mp + 2) / 5 + 1
  let m := if mp < 10 then mp + 3 else mp - 9
  (d, m, if m ≤ 2 then y + 1 else y)

/-- Lexicographic comparison of the canonical `DD-MM-YYYY` renderings of two
epoch days: day field first, then month, then year.  This embeds SQLite TEXT
comparison of the stored `done_on` strings. -/
def strLe (a b : ℤ) : Bool :=
  let ca := civil a
  let cb := civil b
  if ca.1 ≠ cb.1 then ca.1 ≤ cb.1
  else if ca.2.1 ≠ cb.2.1 then ca.2.1 ≤ cb.2.1
  else ca.2.2 ≤ cb.2.2

/-! ## Streak engine (`HabitTracker._compute_streak_from_completions`,
`HabitTracker._longest_streak_from_dates`, `HabitTracker._days_since_from_dates`) -/

/-- The `while cur in dates: streak += 1; cur = prev(cur)` loop of
`_compute_streak_from_completions`, started at `d`. -/
def streakLoop (s : Finset ℤ) (d : ℤ) : ℕ :=
  if h : d ∈ s then 1 + streakLoop s (d - 1) else 0
termination_by (s.filter (· ≤ d)).card
decreasing_by
  apply Finset.card_lt_card
  constructor
  · intro x hx
    simp only [Finset.mem_filter] at hx ⊢
    exact ⟨hx.1, by omega⟩
  · intro hsub
    have hd : d ∈ s.filter (· ≤ d) := by simp [h]
    have hcon := hsub hd
    simp at hcon

/-- `HabitTracker._compute_streak_from_completions`: start at `today` if
present, else at `today - 1` if present, else return 0; then walk backward. -/
def currentStreakZ (s : Finset ℤ) (today : ℤ) : ℕ :=
  if today ∈ s then streakLoop s today
  else if today - 1 ∈ s then streakLoop s (today - 1)
  else 0

/-- The forward extension loop of `_longest_streak_from_dates`: number of
consecutive successors of `d` present in the set. -/
def chainFwd (s : Finset ℤ) (d : ℤ) : ℕ :=
  if h : (d + 1) ∈ s then 1 + chainFwd s (d + 1) else 0
termination_by (s.filter (d < ·)).card
decreasing_by
  apply Finset.card_lt_card
  constructor
  · intro x hx
    simp only [Finset.mem_filter] at hx ⊢
    exact ⟨hx.1, by omega⟩
  · intro hsub
    have hd : d + 1 ∈ s.filter (d < ·) := by simp [h]
    have hcon := hsub hd
    simp at hcon

/-- `HabitTracker._longest_streak_from_dates`: for each `d` in the set that is
a run head (`d - 1` absent), the run length is `1` plus the forward chain;
the answer is the maximum over the set (0 for the empty set, as in the code's
early return).  Non-heads contribute 0, which never exceeds a head's ≥1
contribution, matching the code skipping them. -/
def longestStreakZ (s : Finset ℤ) : ℕ :=
  s.sup (fun d => if d - 1 ∈ s then 0 else 1 + chainFwd s d)

/-- `HabitTracker._days_since_from_dates` on well-formed dates: `None` for the
empty set, else `today - max(dates)`. -/
def daysSinceZ (s : Finset ℤ) (today : ℤ) : Option ℤ :=
  if h : s.Nonempty then some (today - s.max' h) else none

/-! ### Basic streak lemmas -/

theorem streakLoop_eq_zero {s : Finset ℤ} {d : ℤ} (h : d ∉ s) :
    streakLoop s d = 0 := by
  rw [streakLoop]
  simp [h]

theorem streakLoop_of_mem {s : Finset ℤ} {d : ℤ} (h : d ∈ s) :
    streakLoop s d = 1 + streakLoop s (d - 1) := by
  rw [streakLoop]
  simp [h]

theorem streakLoop_pos {s : Finset ℤ} {d : ℤ} (h : d ∈ s) :
    1 ≤ streakLoop s d := by
  rw [streakLoop_of_mem h]
  omega

/-- The backward walk only counts days present in the set: every day in
`[d - streakLoop s d + 1, d]` is in `s`. -/
theorem streakLoop_mem_Icc {s : Finset ℤ} (d : ℤ) :
    ∀ j ∈ Finset.Icc (d - streakLoop s d + 1) d, j ∈ s := by
  by_cases h : d ∈ s
  · intro j hj
    rw [Finset.mem_Icc] at hj
    rw [streakLoop_of_mem h] at hj
    rcases eq_or_lt_of_le hj.2 with rfl | hlt
    · exact h
    · have ih := streakLoop_mem_Icc (s := s) (d - 1)
      exact ih j (by rw [Finset.mem_Icc]; omega)
  · intro j hj
    rw [Finset.mem_Icc] at hj
    rw [streakLoop_eq_zero h] at hj
    omega
termination_by (s.filter (· ≤ d)).card
decreasing_by
  apply Finset.card_lt_card
  constructor
  · intro x hx
    simp only [Finset.mem_filter] at hx ⊢
    exact ⟨hx.1, by omega⟩
  · intro hsub
    have hd : d ∈ s.filter (· ≤ d) := by simp [h]
    have hcon := hsub hd
    simp at hcon

/-- The backward walk stops at the first missing day. -/
theorem streakLoop_stop (s : Finset ℤ) (d : ℤ) :
    (d - streakLoop s d) ∉ s := by
  by_cases h : d ∈ s
  · rw [streakLoop_of_mem h]
    have ih := streakLoop_stop s (d - 1)
    have harith : d - ((1 + streakLoop s (d - 1) : ℕ) : ℤ)
        = d - 1 - (streakLoop s (d - 1) : ℤ) := by
      push_cast
      ring
    rw [harith]
    exact ih
  · rw [streakLoop_eq_zero h]
    simpa using h
termination_by (s.filter (· ≤ d)).card
decreasing_by
  apply Finset.card_lt_card
  constructor
  · intro x hx
    simp only [Finset.mem_filter] at hx ⊢
    exact ⟨hx.1, by omega⟩
  · intro hsub
    have hd : d ∈ s.filter (· ≤ d) := by simp [h]
    have hcon := hsub hd
    simp at hcon

/-- If the `k` days `[d - k + 1, d]` are all present, the walk counts at
least `k`. -/
theorem streakLoop_ge {s : Finset ℤ} (k : ℕ) (d : ℤ)
    (h : ∀ j ∈ Finset.Icc (d - k + 1) d, j ∈ s) : k ≤ streakLoop s d := by
  induction k generalizing d with
  | zero => omega
  | succ n ih =>
    have hd : d ∈ s := h d (by rw [Finset.mem_Icc]; constructor <;> omega)
    rw [streakLoop_of_mem hd]
    have hprev : n ≤ streakLoop s (d - 1) := by
      apply ih
      intro j hj
      rw [Finset.mem_Icc] at hj
      exact h j (by rw [Finset.mem_Icc]; constructor <;> omega)
    omega

/-- On an interval `Icc lo hi`, the walk started at `hi` counts the whole
interval. -/
theorem streakLoop_Icc (lo hi : ℤ) (h : lo ≤ hi) :
    streakLoop (Finset.Icc lo hi) hi = (hi - lo + 1).toNat := by
  have hge : (hi - lo + 1).toNat ≤ streakLoop (Finset.Icc lo hi) hi := by
    apply streakLoop_ge
    intro j hj
    rw [Finset.mem_Icc] at hj ⊢
    omega
  have hpos : 1 ≤ streakLoop (Finset.Icc lo hi) hi :=
    streakLoop_pos (by rw [Finset.mem_Icc]; omega)
  have hmem := streakLoop_mem_Icc (s := Finset.Icc lo hi) hi
      (hi - streakLoop (Finset.Icc lo hi) hi + 1) (by rw [Finset.mem_Icc]; omega)
  rw [Finset.mem_Icc] at hmem
  omega

theorem chainFwd_of_mem {s : Finset ℤ} {d : ℤ} (h : d + 1 ∈ s) :
    chainFwd s d = 1 + chainFwd s (d + 1) := by
  rw [chainFwd]
  simp [h]

theorem chainFwd_eq_zero {s : Finset ℤ} {d : ℤ} (h : d + 1 ∉ s) :
    chainFwd s d = 0 := by
  rw [chainFwd]
  simp [h]

/-- The forward extension only visits days present in the set. -/
theorem chainFwd_mem_Icc {s : Finset ℤ} (d : ℤ) :
    ∀ j ∈ Finset.Icc (d + 1) (d + chainFwd s d), j ∈ s := by
  by_cases h : d + 1 ∈ s
  · intro j hj
    rw [Finset.mem_Icc] at hj
    rw [chainFwd_of_mem h] at hj
    rcases eq_or_lt_of_le hj.1 with rfl | hlt
    · exact h
    · have ih := chainFwd_mem_Icc (s := s) (d + 1)
      exact ih j (by rw [Finset.mem_Icc]; push_cast at hj ⊢; omega)
  · intro j hj
    rw [Finset.mem_Icc] at hj
    rw [chainFwd_eq_zero h] at hj
    omega
termination_by (s.filter (d < ·)).card
decreasing_by
  apply Finset.card_lt_card
  constructor
  · intro x hx
    simp only [Finset.mem_filter] at hx ⊢
    exact ⟨hx.1, by omega⟩
  · intro hsub
    have hd : d + 1 ∈ s.filter (d < ·) := by simp [h]
    have hcon := hsub hd
    simp at hcon

/-- The forward extension stops at the first missing day. -/
theorem chainFwd_stop (s : Finset ℤ) (d : ℤ) :
    (d + chainFwd s d + 1) ∉ s := by
  by_cases h : d + 1 ∈ s
  · rw [chainFwd_of_mem h]
    have ih := chainFwd_stop s (d + 1)
    have harith : d + ((1 + chainFwd s (d + 1) : ℕ) : ℤ) + 1
        = d + 1 + (chainFwd s (d + 1) : ℤ) + 1 := by
      push_cast
      ring
    rw [harith]
    exact ih
  · rw [chainFwd_eq_zero h]
    simpa using h
termination_by (s.filter (d < ·)).card
decreasing_by
  apply Finset.card_lt_card
  constructor
  · intro x hx
    simp only [Finset.mem_filter] at hx ⊢
    exact ⟨hx.1, by omega⟩
  · intro hsub
    have hd : d + 1 ∈ s.filter (d < ·) := by simp [h]
    have hcon := hsub hd
    simp at hcon

/-- If the `m` consecutive successors of `d` are all present, the forward
extension counts at least `m`. -/
theorem chainFwd_ge {s : Finset ℤ} (m : ℕ) (d : ℤ)
    (h : ∀ j ∈ Finset.Icc (d + 1) (d + m), j ∈ s) : m ≤ chainFwd s d := by
  induction m generalizing d with
  | zero => omega
  | succ n ih =>
    have hd : d + 1 ∈ s := h (d + 1) (by rw [Finset.mem_Icc]; push_cast; omega)
    rw [chainFwd_of_mem hd]
    have hnext : n ≤ chainFwd s (d + 1) := by
      apply ih
      intro j hj
      rw [Finset.mem_Icc] at hj
      exact h j (by rw [Finset.mem_Icc]; push_cast at hj ⊢; omega)
    omega

/-- Any `n` consecutive days all present in `s` force `longestStreakZ s ≥ n`. -/
theorem longest_ge_of_run {s : Finset ℤ} (n : ℕ) (d : ℤ) (hn : 1 ≤ n)
    (h : ∀ j ∈ Finset.Icc d (d + n - 1), j ∈ s) : n ≤ longestStreakZ s := by
  have hd : d ∈ s := h d (by rw [Finset.mem_Icc]; omega)
  set L := streakLoop s d with hL
  have hL1 : 1 ≤ L := streakLoop_pos hd
  set head := d - L + 1 with hhead
  have hheadmem : head ∈ s :=
    streakLoop_mem_Icc d head (by rw [Finset.mem_Icc]; omega)
  have hheadprev : head - 1 ∉ s := by
    have := streakLoop_stop s d
    have harith : head - 1 = d - L := by omega
    rwa [harith]
  have hback : ∀ j ∈ Finset.Icc head d, j ∈ s := by
    intro j hj
    rw [Finset.mem_Icc] at hj
    exact streakLoop_mem_Icc d j (by rw [Finset.mem_Icc]; omega)
  have hchain : (d + n - 1 - head).toNat ≤ chainFwd s head := by
    apply chainFwd_ge
    intro j hj
    rw [Finset.mem_Icc] at hj
    by_cases hjd : j ≤ d
    · exact hback j (by rw [Finset.mem_Icc]; omega)
    · exact h j (by rw [Finset.mem_Icc]; omega)
  have hsup : (if head - 1 ∈ s then 0 else 1 + chainFwd s head)
      ≤ s.sup (fun d => if d - 1 ∈ s then 0 else 1 + chainFwd s d) :=
    Finset.le_sup (f := fun d => if d - 1 ∈ s then 0 else 1 + chainFwd s d) hheadmem
  rw [if_neg hheadprev] at hsup
  rw [longestStreakZ]
  omega

/-- `longestStreakZ` is attained by a maximal run: a head whose forward chain
realizes the value, flanked by missing days. -/
theorem longest_attained {s : Finset ℤ} (h : s.Nonempty) :
    ∃ d ∈ s, d - 1 ∉ s ∧ longestStreakZ s = 1 + chainFwd s d ∧
      (∀ j ∈ Finset.Icc d (d + longestStreakZ s - 1), j ∈ s) ∧
      (d + longestStreakZ s) ∉ s := by
  obtain ⟨i, hi, hsup⟩ := Finset.exists_mem_eq_sup s h
    (fun d => if d - 1 ∈ s then 0 else 1 + chainFwd s d)
  have hmin : s.min' h - 1 ∉ s := by
    intro hcon
    have := Finset.min'_le s _ hcon
    omega
  have hpos : 1 ≤ longestStreakZ s := by
    have hle : (if s.min' h - 1 ∈ s then 0 else 1 + chainFwd s (s.min' h))
        ≤ s.sup (fun d => if d - 1 ∈ s then 0 else 1 + chainFwd s d) :=
      Finset.le_sup (f := fun d => if d - 1 ∈ s then 0 else 1 + chainFwd s d)
        (Finset.min'_mem s h)
    rw [if_neg hmin] at hle
    rw [longestStreakZ]
    omega
  have hihead : i - 1 ∉ s := by
    intro hcon
    rw [longestStreakZ] at hpos
    rw [hsup] at hpos
    simp [hcon] at hpos
  refine ⟨i, hi, hihead, ?_, ?_, ?_⟩
  · rw [longestStreakZ, hsup, if_neg hihead]
  · intro j hj
    rw [Finset.mem_Icc] at hj
    have hval : longestStreakZ s = 1 + chainFwd s i := by
      rw [longestStreakZ, hsup, if_neg hihead]
    rcases eq_or_lt_of_le hj.1 with rfl | hlt
    · exact hi
    · apply chainFwd_mem_Icc i j
      rw [Finset.mem_Icc]
      rw [hval] at hj
      push_cast at hj ⊢
      omega
  · have hval : longestStreakZ s = 1 + chainFwd s i := by
      rw [longestStreakZ, hsup, if_neg hihead]
    rw [hval]
    have := chainFwd_stop s i
    have harith : i + ((1 + chainFwd s i : ℕ) : ℤ) = i + chainFwd s i + 1 := by
      push_cast
      ring
    rwa [harith]

theorem longest_empty : longestStreakZ (∅ : Finset ℤ) = 0 := by
  rw [longestStreakZ]
  simp

/-- C3: for a set of `n` consecutive dates `{d, …, d+n-1}` (`n ≥ 1`),
`currentStreak` returns `n` with `today = d+n-1`, still `n` with
`today = d+n` (one-day grace), and `0` with `today = d+n+1`; in general the
walk starts at `today` if present, else at `today - 1` if present, else
returns 0, and counts inclusive backward steps while each preceding day is
in the set (the counted interval lies in the set and the day before it does
not). -/
theorem current_streak_consecutive_run (d : ℤ) (n : ℕ) (hn : 1 ≤ n) :
    currentStreakZ (Finset.Icc d (d + n - 1)) (d + n - 1) = n ∧
    currentStreakZ (Finset.Icc d (d + n - 1)) (d + n) = n ∧
    currentStreakZ (Finset.Icc d (d + n - 1)) (d + n + 1) = 0 ∧
    (∀ s : Finset ℤ, ∀ t : ℤ, t ∉ s → t - 1 ∉ s → currentStreakZ s t = 0) ∧
    (∀ s : Finset ℤ, ∀ t : ℤ, t ∈ s →
      (∀ j ∈ Finset.Icc (t - currentStreakZ s t + 1) t, j ∈ s) ∧
      (t - currentStreakZ s t) ∉ s) ∧
    (∀ s : Finset ℤ, ∀ t : ℤ, t ∉ s → t - 1 ∈ s →
      (∀ j ∈ Finset.Icc (t - currentStreakZ s t) (t - 1), j ∈ s) ∧
      (t - 1 - currentStreakZ s t) ∉ s) := by
  have hmemlast : d + n - 1 ∈ Finset.Icc d (d + n - 1) := by
    rw [Finset.mem_Icc]
    omega
  have hIcc := streakLoop_Icc d (d + n - 1) (by omega)
  have hval : streakLoop (Finset.Icc d (d + n - 1)) (d + n - 1) = n := by
    rw [hIcc]
    omega
  refine ⟨?_, ?_, ?_, ?_, ?_, ?_⟩
  · rw [currentStreakZ, if_pos hmemlast, hval]
  · have hout : d + n ∉ Finset.Icc d (d + n - 1) := by
      rw [Finset.mem_Icc]
      omega
    have harith : d + n - 1 = d + (n : ℤ) - 1 := by omega
    rw [currentStreakZ, if_neg hout, if_pos (by rw [harith] at hmemlast ⊢; exact hmemlast)]
    rw [harith]
    exact hval
  · have hout1 : d + n + 1 ∉ Finset.Icc d (d + n - 1) := by
      rw [Finset.mem_Icc]
      omega
    have hout2 : d + n + 1 - 1 ∉ Finset.Icc d (d + n - 1) := by
      rw [Finset.mem_Icc]
      omega
    rw [currentStreakZ, if_neg hout1, if_neg hout2]
  · intro s t h1 h2
    rw [currentStreakZ, if_neg h1, if_neg h2]
  · intro s t ht
    rw [currentStreakZ, if_pos ht]
    exact ⟨streakLoop_mem_Icc t, streakLoop_stop s t⟩
  · intro s t ht hy
    rw [currentStreakZ, if_neg ht, if_pos hy]
    constructor
    · intro j hj
      rw [Finset.mem_Icc] at hj
      exact streakLoop_mem_Icc (t - 1) j (by rw [Finset.mem_Icc]; omega)
    · exact streakLoop_stop s (t - 1)

theorem current_streak_consecutive_run_witness :
    currentStreakZ (Finset.Icc 0 2) 2 = 3 ∧
    currentStreakZ (Finset.Icc 0 2) 3 = 3 ∧
    currentStreakZ (Finset.Icc 0 2) 4 = 0 := by
  have h := current_streak_consecutive_run 0 3 (by norm_num)
  norm_num at h
  exact ⟨h.1, h.2.1, h.2.2.1⟩

/-- C4: `longestStreak` returns 0 on the empty set; it dominates the length
of every run of consecutive days contained in the set; on a nonempty set it
is attained by a maximal run (flanked by missing days); and on a set that is
exactly two runs of lengths `a` and `b` separated by at least two days it
returns `max a b`. -/
theorem longest_streak_maximal_run :
    longestStreakZ (∅ : Finset ℤ) = 0 ∧
    (∀ s : Finset ℤ, ∀ n : ℕ, ∀ d : ℤ, 1 ≤ n →
      (∀ j ∈ Finset.Icc d (d + n - 1), j ∈ s) → n ≤ longestStreakZ s) ∧
    (∀ s : Finset ℤ, s.Nonempty → ∃ d ∈ s, d - 1 ∉ s ∧
      (∀ j ∈ Finset.Icc d (d + longestStreakZ s - 1), j ∈ s) ∧
      (d + longestStreakZ s) ∉ s) ∧
    (∀ a b : ℕ, ∀ d e : ℤ, 1 ≤ a → 1 ≤ b → d + a + 1 ≤ e →
      longestStreakZ (Finset.Icc d (d + a - 1) ∪ Finset.Icc e (e + b - 1))
        = max a b) := by
  refine ⟨longest_empty, fun s n d hn h => longest_ge_of_run n d hn h,
    ?_, ?_⟩
  · intro s hs
    obtain ⟨d, hd, hhead, _, hrun, hstop⟩ := longest_attained hs
    exact ⟨d, hd, hhead, hrun, hstop⟩
  · intro a b d e ha hb hgap
    set s := Finset.Icc d (d + a - 1) ∪ Finset.Icc e (e + b - 1) with hsdef
    have hga : a ≤ longestStreakZ s := by
      apply longest_ge_of_run a d ha
      intro j hj
      rw [hsdef, Finset.mem_union]
      exact Or.inl hj
    have hgb : b ≤ longestStreakZ s := by
      apply longest_ge_of_run b e hb
      intro j hj
      rw [hsdef, Finset.mem_union]
      exact Or.inr hj
    have hne : s.Nonempty := by
      refine ⟨d, ?_⟩
      rw [hsdef, Finset.mem_union, Finset.mem_Icc]
      left
      omega
    obtain ⟨h0, hh0, hhead, hvalL, hrun, hstop⟩ := longest_attained hne
    set L := longestStreakZ s with hLdef
    have hL1 : 1 ≤ L := le_trans ha hga
    have hgapout : d + a ∉ s := by
      rw [hsdef, Finset.mem_union, Finset.mem_Icc, Finset.mem_Icc]
      omega
    have hout2 : e + b ∉ s := by
      rw [hsdef, Finset.mem_union, Finset.mem_Icc, Finset.mem_Icc]
      omega
    rw [hsdef, Finset.mem_union, Finset.mem_Icc, Finset.mem_Icc] at hh0
    have hub : L ≤ a ∨ L ≤ b := by
      rcases hh0 with hfirst | hsecond
      · left
        by_contra hcon
        push_neg at hcon
        have hmem : d + a ∈ Finset.Icc h0 (h0 + L - 1) := by
          rw [Finset.mem_Icc]
          omega
        exact hgapout (hrun _ hmem)
      · right
        by_contra hcon
        push_neg at hcon
        have hmem : e + b ∈ Finset.Icc h0 (h0 + L - 1) := by
          rw [Finset.mem_Icc]
          omega
        exact hout2 (hrun _ hmem)
    omega

theorem longest_streak_maximal_run_witness :
    longestStreakZ (Finset.Icc 0 1 ∪ Finset.Icc 4 6) = max 2 3 := by
  have h := longest_streak_maximal_run.2.2.2 2 3 0 4
    (by norm_num) (by norm_num) (by norm_num)
  norm_num at h ⊢
  exact h

/-- C10: for every completion set and every `today`, the current streak never
exceeds the longest streak — the backward walk counts a run of consecutive
days contained in the set, which the longest-run maximum dominates. -/
theorem current_streak_le_longest_streak (s : Finset ℤ) (t : ℤ) :
    currentStreakZ s t ≤ longestStreakZ s := by
  by_cases ht : t ∈ s
  · rw [currentStreakZ, if_pos ht]
    have h1 : 1 ≤ streakLoop s t := streakLoop_pos ht
    apply longest_ge_of_run (streakLoop s t) (t - streakLoop s t + 1) h1
    intro j hj
    rw [Finset.mem_Icc] at hj
    exact streakLoop_mem_Icc t j (by rw [Finset.mem_Icc]; omega)
  · by_cases hy : t - 1 ∈ s
    · rw [currentStreakZ, if_neg ht, if_pos hy]
      have h1 : 1 ≤ streakLoop s (t - 1) := streakLoop_pos hy
      apply longest_ge_of_run (streakLoop s (t - 1)) (t - 1 - streakLoop s (t - 1) + 1) h1
      intro j hj
      rw [Finset.mem_Icc] at hj
      exact streakLoop_mem_Icc (t - 1) j (by rw [Finset.mem_Icc]; omega)
    · rw [currentStreakZ, if_neg ht, if_neg hy]
      omega

/-! ## Dashboard (`HabitTracker.dashboard`)

A habit is presented as its name together with its set of completion dates;
`dashboard` computes one row per habit and sorts with
`sort_key(row) = (not stale, -days, -streak)` where `days` is `days_since`
with `None` replaced by `-1` — Python compares these tuples
lexicographically (with `False < True`, i.e. 0 < 1) and `sorted` is stable. -/

structure Row where
  name : String
  streak : ℕ
  daysSince : Option ℤ
  stale : Bool
deriving DecidableEq

def computeRowZ (today : ℤ) (h : String × Finset ℤ) : Row :=
  let ds := daysSinceZ h.2 today
  { name := h.1
    streak := currentStreakZ h.2 today
    daysSince := ds
    stale := match ds with
      | none => false
      | some k => decide (2 ≤ k) }

/-- `row["days_since"] if row["days_since"] is not None else -1`. -/
def dsKey (r : Row) : ℤ := r.daysSince.getD (-1)

/-- The Python sort key `(not stale, -days, -streak)`, with booleans as 0/1
integers exactly as Python orders them. -/
def sortKey (r : Row) : ℤ × ℤ × ℤ :=
  (if r.stale then 0 else 1, -(dsKey r), -(r.streak : ℤ))

def keyLeP (a b : Row) : Prop :=
  (sortKey a).1 < (sortKey b).1 ∨
    ((sortKey a).1 = (sortKey b).1 ∧ ((sortKey a).2.1 < (sortKey b).2.1 ∨
      ((sortKey a).2.1 = (sortKey b).2.1 ∧ (sortKey a).2.2 ≤ (sortKey b).2.2)))

instance (a b : Row) : Decidable (keyLeP a b) := by
  rw [keyLeP]
  infer_instance

/-- Lexicographic tuple comparison, as Python's `sorted` uses on the key. -/
def keyLe (a b : Row) : Bool := decide (keyLeP a b)

def dashboardZ (habits : List (String × Finset ℤ)) (today : ℤ) : List Row :=
  (habits.map (computeRowZ today)).mergeSort keyLe

theorem keyLe_trans (a b c : Row) (hab : keyLe a b = true) (hbc : keyLe b c = true) :
    keyLe a c = true := by
  simp only [keyLe, keyLeP, decide_eq_true_eq] at hab hbc ⊢
  omega

theorem keyLe_total (a b : Row) : (keyLe a b || keyLe b a) = true := by
  simp only [keyLe, keyLeP, Bool.or_eq_true, decide_eq_true_eq]
  omega

/-- C5: the dashboard is a permutation of the computed rows in which every
stale row precedes every non-stale row; within a staleness group rows come in
descending `daysSince` order (no-history rows counted as `-1`); within equal
`daysSince`, in descending current-streak order; and rows equal on all three
sort keys keep their original relative order (stable, deterministic sort). -/
theorem dashboard_sort_contract (habits : List (String × Finset ℤ)) (today : ℤ) :
    (dashboardZ habits today).Perm (habits.map (computeRowZ today)) ∧
    (∀ i j : Fin (dashboardZ habits today).length, i < j →
      ((dashboardZ habits today).get j).stale = true →
      ((dashboardZ habits today).get i).stale = true) ∧
    (∀ i j : Fin (dashboardZ habits today).length, i < j →
      ((dashboardZ habits today).get i).stale = ((dashboardZ habits today).get j).stale →
      dsKey ((dashboardZ habits today).get j) ≤ dsKey ((dashboardZ habits today).get i)) ∧
    (∀ i j : Fin (dashboardZ habits today).length, i < j →
      ((dashboardZ habits today).get i).stale = ((dashboardZ habits today).get j).stale →
      dsKey ((dashboardZ habits today).get i) = dsKey ((dashboardZ habits today).get j) →
      ((dashboardZ habits today).get j).streak ≤ ((dashboardZ habits today).get i).streak) ∧
    (∀ k : ℤ × ℤ × ℤ,
      (dashboardZ habits today).filter (fun r => decide (sortKey r = k)) =
        (habits.map (computeRowZ today)).filter (fun r => decide (sortKey r = k))) := by
  have hperm : (dashboardZ habits today).Perm (habits.map (computeRowZ today)) :=
    List.mergeSort_perm (habits.map (computeRowZ today)) keyLe
  have hsorted : List.Pairwise (fun a b => keyLe a b = true) (dashboardZ habits today) :=
    List.sorted_mergeSort keyLe_trans keyLe_total (habits.map (computeRowZ today))
  have hget := List.pairwise_iff_get.mp hsorted
  refine ⟨hperm, ?_, ?_, ?_, ?_⟩
  · intro i j hij hjs
    have h := hget i j hij
    simp only [keyLe, keyLeP, sortKey, decide_eq_true_eq] at h
    by_contra his
    rw [Bool.not_eq_true] at his
    rw [hjs, his] at h
    simp only [Bool.false_eq_true, if_false, if_true] at h
    omega
  · intro i j hij heq
    have h := hget i j hij
    simp only [keyLe, keyLeP, sortKey, decide_eq_true_eq] at h
    rw [heq] at h
    cases hb : ((dashboardZ habits today).get j).stale
    · rw [hb] at h
      simp only [Bool.false_eq_true, if_false] at h
      omega
    · rw [hb] at h
      simp only [if_true] at h
      omega
  · intro i j hij heq hds
    have h := hget i j hij
    simp only [keyLe, keyLeP, sortKey, decide_eq_true_eq] at h
    rw [heq, hds] at h
    cases hb : ((dashboardZ habits today).get j).stale
    · rw [hb] at h
      simp only [Bool.false_eq_true, if_false] at h
      omega
    · rw [hb] at h
      simp only [if_true] at h
      omega
  · intro k
    have hpair : (List.filter (fun r => decide (sortKey r = k))
        (habits.map (computeRowZ today))).Pairwise (fun a b => keyLe a b = true) := by
      apply List.pairwise_of_forall_mem_list
      intro a ha b hb
      have hak := (List.mem_filter.mp ha).2
      have hbk := (List.mem_filter.mp hb).2
      rw [decide_eq_true_eq] at hak hbk
      simp only [keyLe, keyLeP, decide_eq_true_eq]
      rw [hak, hbk]
      omega
    have hsub1 : (List.filter (fun r => decide (sortKey r = k))
        (habits.map (computeRowZ today))).Sublist (dashboardZ habits today) :=
      List.sublist_mergeSort keyLe_trans keyLe_total hpair
        (List.filter_sublist (habits.map (computeRowZ today)))
    have hidem : (List.filter (fun r => decide (sortKey r = k))
        (List.filter (fun r => decide (sortKey r = k))
          (habits.map (computeRowZ today)))) =
        List.filter (fun r => decide (sortKey r = k))
          (habits.map (computeRowZ today)) :=
      List.filter_eq_self.mpr (fun a ha => (List.mem_filter.mp ha).2)
    have hsub2 : (List.filter (fun r => decide (sortKey r = k))
        (habits.map (computeRowZ today))).Sublist
        (List.filter (fun r => decide (sortKey r = k)) (dashboardZ habits today)) := by
      have hx := hsub1.filter (fun r => decide (sortKey r = k))
      rwa [hidem] at hx
    have hlen : (List.filter (fun r => decide (sortKey r = k))
        (dashboardZ habits today)).length =
        (List.filter (fun r => decide (sortKey r = k))
          (habits.map (computeRowZ today))).length :=
      (hperm.filter (fun r => decide (sortKey r = k))).length_eq
    exact (hsub2.eq_of_length hlen.symm).symm

unseal List.merge List.mergeSort streakLoop in
theorem dashboard_sort_contract_witness :
    dsKey ((dashboardZ [("a", ({0} : Finset ℤ)), ("b", {1})] 5).get ⟨1, by decide⟩)
      ≤ dsKey ((dashboardZ [("a", ({0} : Finset ℤ)), ("b", {1})] 5).get ⟨0, by decide⟩) := by
  have h := dashboard_sort_contract [("a", ({0} : Finset ℤ)), ("b", {1})] 5
  exact h.2.2.1 ⟨0, by decide⟩ ⟨1, by decide⟩ (by decide) (by decide)

/-! ## Mutation operations (`HabitTracker.edit/done/complete_on/uncomplete_on/delete`)

The SQLite state is modelled as a list of habit records in id order
(`fetch_all` orders by id; the 1-based CLI index selects a position in that
order), each record carrying its own completion set — deleting a record
removes its completions with it, which is the `ON DELETE CASCADE` of the
schema.  The Python status strings become the enumeration `St`.  A
user-supplied streak string is either blank, an integer, or unparseable
(`IntStr`); a user-supplied date string is either blank, a canonical date, or
unparseable (`DateInput`). -/

inductive St where
  | already
  | incremented
  | reset_to_1
  | bad_index
  | invalid_streak
  | invalid_date
  | future_date
  | nothingStatus
  | edited
  | added
  | removed
  | nothing_to_remove
  | deleted
deriving DecidableEq

inductive IntStr where
  | blank
  | num (n : ℤ)
  | junk
deriving DecidableEq

inductive DateInput where
  | dblank
  | dgood (d : ℤ)
  | dbad
deriving DecidableEq

structure THabit where
  name : String
  streak : ℤ
  lastDone : Option ℤ
  comps : Finset ℤ
deriving DecidableEq

/-- `idx = index_1based - 1; idx < 0 or idx >= len(habits) → bad_index`. -/
def idx1 (habits : List THabit) (i : ℤ) : Option (Fin habits.length) :=
  if h : 0 ≤ i - 1 ∧ i - 1 < (habits.length : ℤ) then
    some ⟨(i - 1).toNat, by omega⟩
  else none

/-- `HabitTracker.edit`: candidates are computed and validated first (streak
before date, as in the code), and the single repo update happens only on the
`edited` path. -/
def trackerEdit (habits : List THabit) (i : ℤ) (name : String)
    (streak : IntStr) (date : DateInput) : St × List THabit :=
  match idx1 habits i with
  | none => (.bad_index, habits)
  | some ix =>
    let h := habits.get ix
    let newName : Option String :=
      if name ≠ "" ∧ name.trim ≠ "" ∧ name.trim ≠ h.name then some name.trim else none
    let sres : Except St (Option ℤ) :=
      match streak with
      | .blank => .ok none
      | .junk => .error .invalid_streak
      | .num s =>
        if s < 0 then .error .invalid_streak
        else if s ≠ h.streak then .ok (some s) else .ok none
    match sres with
    | .error e => (e, habits)
    | .ok newStreak =>
      let dres : Except St (Option ℤ) :=
        match date with
        | .dblank => .ok none
        | .dbad => .error .invalid_date
        | .dgood d => if some d ≠ h.lastDone then .ok (some d) else .ok none
      match dres with
      | .error e => (e, habits)
      | .ok newLast =>
        if newName = none ∧ newStreak = none ∧ newLast = none then
          (.nothingStatus, habits)
        else
          (.edited, habits.set ix
            { h with
              name := newName.getD h.name
              streak := newStreak.getD h.streak
              lastDone := match newLast with
                | some d => some d
                | none => h.lastDone })

/-- `HabitTracker.done`: refuse if today is already completed; otherwise add
today's completion and report `incremented` exactly when yesterday is in the
(updated) store. -/
def trackerDone (habits : List THabit) (i : ℤ) (today : ℤ) : St × List THabit :=
  match idx1 habits i with
  | none => (.bad_index, habits)
  | some ix =>
    let h := habits.get ix
    if today ∈ h.comps then (.already, habits)
    else
      let habits' := habits.set ix { h with comps := insert today h.comps }
      if today - 1 ∈ insert today h.comps then (.incremented, habits')
      else (.reset_to_1, habits')

/-- `HabitTracker.complete_on`. -/
def trackerCompleteOn (habits : List THabit) (i : ℤ) (date : DateInput)
    (today : ℤ) : St × List THabit :=
  match idx1 habits i with
  | none => (.bad_index, habits)
  | some ix =>
    match date with
    | .dblank => (.invalid_date, habits)
    | .dbad => (.invalid_date, habits)
    | .dgood d =>
      if today - d < 0 then (.future_date, habits)
      else
        let h := habits.get ix
        if d ∈ h.comps then (.already, habits)
        else (.added, habits.set ix { h with comps := insert d h.comps })

/-- `HabitTracker.uncomplete_on`. -/
def trackerUncompleteOn (habits : List THabit) (i : ℤ) (date : DateInput) :
    St × List THabit :=
  match idx1 habits i with
  | none => (.bad_index, habits)
  | some ix =>
    match date with
    | .dblank => (.invalid_date, habits)
    | .dbad => (.invalid_date, habits)
    | .dgood d =>
      let h := habits.get ix
      if d ∈ h.comps then (.removed, habits.set ix { h with comps := h.comps.erase d })
      else (.nothing_to_remove, habits)

/-- `HabitTracker.delete`: removing the record removes its completions
(cascade). -/
def trackerDelete (habits : List THabit) (i : ℤ) : St × List THabit :=
  match idx1 habits i with
  | none => (.bad_index, habits)
  | some ix => (.deleted, habits.eraseIdx ix)

/-- C6: marking done when a completion already exists for the date returns
`already` and leaves the state (hence the completion set and its cardinality)
unchanged; otherwise exactly today's completion is inserted (cardinality goes
up by one) and the status is `incremented` precisely when a completion exists
for `date - 1`, else `reset_to_1`. -/
theorem mark_done_idempotent_status (habits : List THabit) (i today : ℤ)
    (ix : Fin habits.length) (hix : idx1 habits i = some ix) :
    (today ∈ (habits.get ix).comps →
      (trackerDone habits i today).1 = St.already ∧
      (trackerDone habits i today).2 = habits) ∧
    (today ∉ (habits.get ix).comps →
      (trackerDone habits i today).2 =
        habits.set ix
          { habits.get ix with comps := insert today (habits.get ix).comps } ∧
      (insert today (habits.get ix).comps).card = (habits.get ix).comps.card + 1 ∧
      ((trackerDone habits i today).1 = St.incremented ↔
        today - 1 ∈ (habits.get ix).comps) ∧
      ((trackerDone habits i today).1 = St.reset_to_1 ↔
        today - 1 ∉ (habits.get ix).comps)) := by
  have hyne : today - 1 ∈ insert today (habits.get ix).comps ↔
      today - 1 ∈ (habits.get ix).comps := by
    rw [Finset.mem_insert]
    constructor
    · rintro (heq | hin)
      · omega
      · exact hin
    · exact Or.inr
  constructor
  · intro hmem
    rw [trackerDone, hix]
    simp only [List.get_eq_getElem] at hmem
    simp [hmem]
  · intro hmem
    rw [trackerDone, hix]
    simp only [List.get_eq_getElem] at hmem hyne
    simp only [hmem, if_false, hyne]
    refine ⟨?_, ?_, ?_, ?_⟩
    · by_cases hy : today - 1 ∈ (habits.get ix).comps <;>
        simp only [List.get_eq_getElem] at hy <;> simp [hy, hmem]
    · simp only [List.get_eq_getElem]
      rw [Finset.card_insert_of_not_mem hmem]
    · by_cases hy : today - 1 ∈ (habits.get ix).comps <;>
        simp only [List.get_eq_getElem] at hy <;> simp [hy, hmem]
    · by_cases hy : today - 1 ∈ (habits.get ix).comps <;>
        simp only [List.get_eq_getElem] at hy <;> simp [hy, hmem]

theorem mark_done_idempotent_status_witness :
    (trackerDone [⟨"a", 0, none, {5}⟩] 1 5).1 = St.already ∧
    (trackerDone [⟨"a", 0, none, {5}⟩] 1 5).2 = [⟨"a", 0, none, {5}⟩] ∧
    (trackerDone [⟨"b", 0, none, {4}⟩] 1 5).1 = St.incremented := by
  have h1 := mark_done_idempotent_status [⟨"a", 0, none, {5}⟩] 1 5 ⟨0, by decide⟩ (by decide)
  have h2 := mark_done_idempotent_status [⟨"b", 0, none, {4}⟩] 1 5 ⟨0, by decide⟩ (by decide)
  refine ⟨(h1.1 (by decide)).1, (h1.1 (by decide)).2, ?_⟩
  exact ((h2.2 (by decide)).2.2.1).mpr (by decide)

/-! ## Legacy model (`habit.py`)

Habits are dicts `{name, streak, last_done}`; the stored `last_done` is a raw
string that may be malformed, modelled by `DStr`: `ok d` is a canonical
parseable date string denoting epoch day `d`, `bad j` is the `j`-th
unparseable string.  `parseDStr` embeds `datetime.strptime` under the fixed
format, with the `try/except` returning `none`. -/

inductive DStr where
  | ok (d : ℤ)
  | bad (junk : ℕ)
deriving DecidableEq

def parseDStr : DStr → Option ℤ
  | .ok d => some d
  | .bad _ => none

structure LHabit where
  name : String
  streak : ℤ
  lastDone : Option DStr
deriving DecidableEq

/-- `days_since` (`habit.py`): `None` for a missing value, `None` for an
unparseable value, else `today - date`. -/
def daysSinceLegacy (dateStr : Option DStr) (today : ℤ) : Option ℤ :=
  match dateStr with
  | none => none
  | some s =>
    match parseDStr s with
    | none => none
    | some d => some (today - d)

/-- `mark_habit_done` (`habit.py`) on the selected habit: an unparseable
stored `last_done` is treated as never done (the `except` branch). -/
def markHabitDone (h : LHabit) (today : ℤ) : St × LHabit :=
  let lastDoneDate : Option ℤ :=
    match h.lastDone with
    | none => none
    | some s => parseDStr s
  if lastDoneDate = some today then (.already, h)
  else if lastDoneDate = some (today - 1) then
    (.incremented, { h with streak := h.streak + 1, lastDone := some (.ok today) })
  else
    (.reset_to_1, { h with streak := 1, lastDone := some (.ok today) })

/-- `edit_habit` (`habit.py`): the index is pre-validated by the menu
(0-based, per the docstring), so out-of-range access is modelled by a default
read that the caller never exercises.  Crucially the code mutates
`habit["name"]` *before* validating the streak, and the streak before
validating the date, so an error return can leave earlier fields applied. -/
def editHabit (habits : List LHabit) (index : ℕ) (name : String)
    (streak : IntStr) (date : DateInput) : St × List LHabit :=
  if name = "" ∧ streak = .blank ∧ date = .dblank then (.nothingStatus, habits)
  else
    let h0 := habits.getD index ⟨"", 0, none⟩
    let h1 := if name ≠ "" then { h0 with name := name } else h0
    match streak with
    | .junk => (.invalid_streak, habits.set index h1)
    | .num s =>
      if 0 ≤ s then
        let h2 := { h1 with streak := s }
        match date with
        | .dblank => (.edited, habits.set index h2)
        | .dbad => (.invalid_date, habits.set index h2)
        | .dgood d => (.edited, habits.set index { h2 with lastDone := some (.ok d) })
      else (.invalid_streak, habits.set index h1)
    | .blank =>
      match date with
      | .dblank => (.edited, habits.set index h1)
      | .dbad => (.invalid_date, habits.set index h1)
      | .dgood d => (.edited, habits.set index { h1 with lastDone := some (.ok d) })

/-- Parse every stored string, failing (`none`) at the first unparseable one,
as evaluating `(datetime.strptime(d, DateFmt).date() for d in dates)` does. -/
def parseAll : List DStr → Option (List ℤ)
  | [] => some []
  | x :: xs =>
    match parseDStr x with
    | none => none
    | some d =>
      match parseAll xs with
      | none => none
      | some ds => some (d :: ds)

/-- `HabitTracker._days_since_from_dates` at the string level:
`max(datetime.strptime(d, DateFmt).date() for d in dates)` raises
(`Except.error`) as soon as any stored string is unparseable — there is no
`try/except` here, unlike legacy `days_since`. -/
def daysSinceFromDatesStr (dates : List DStr) (today : ℤ) :
    Except Unit (Option ℤ) :=
  match dates with
  | [] => .ok none
  | _ =>
    match parseAll dates with
    | none => .error ()
    | some ds =>
      match ds with
      | [] => .ok none
      | x :: xs => .ok (some (today - xs.foldl max x))

/-- C7 (amended): in the SQLite-backed `HabitTracker`, every mutation that
returns a failure status (`bad_index`, `invalid_streak`, `invalid_date`,
`future_date`) leaves the stored state exactly as it was — validation happens
before the single write. -/
theorem tracker_failures_leave_state_unchanged (habits : List THabit) (i : ℤ)
    (name : String) (streak : IntStr) (date : DateInput) (today : ℤ) :
    (((trackerEdit habits i name streak date).1 = St.bad_index ∨
      (trackerEdit habits i name streak date).1 = St.invalid_streak ∨
      (trackerEdit habits i name streak date).1 = St.invalid_date) →
      (trackerEdit habits i name streak date).2 = habits) ∧
    ((trackerDone habits i today).1 = St.bad_index →
      (trackerDone habits i today).2 = habits) ∧
    (((trackerCompleteOn habits i date today).1 = St.bad_index ∨
      (trackerCompleteOn habits i date today).1 = St.invalid_date ∨
      (trackerCompleteOn habits i date today).1 = St.future_date) →
      (trackerCompleteOn habits i date today).2 = habits) ∧
    (((trackerUncompleteOn habits i date).1 = St.bad_index ∨
      (trackerUncompleteOn habits i date).1 = St.invalid_date) →
      (trackerUncompleteOn habits i date).2 = habits) ∧
    ((trackerDelete habits i).1 = St.bad_index →
      (trackerDelete habits i).2 = habits) := by
  refine ⟨?_, ?_, ?_, ?_, ?_⟩
  · rw [trackerEdit]
    cases hx : idx1 habits i
    · intro _
      rfl
    · cases streak <;> cases date <;> dsimp only <;> (try split_ifs) <;> simp
  · rw [trackerDone]
    cases hx : idx1 habits i
    · intro _
      rfl
    · dsimp only
      split_ifs <;> simp
  · rw [trackerCompleteOn]
    cases hx : idx1 habits i
    · intro _
      rfl
    · cases date <;> dsimp only <;> (try split_ifs) <;> simp
  · rw [trackerUncompleteOn]
    cases hx : idx1 habits i
    · intro _
      rfl
    · cases date <;> dsimp only <;> (try split_ifs) <;> simp
  · rw [trackerDelete]
    cases hx : idx1 habits i
    · intro _
      rfl
    · dsimp only
      simp

theorem tracker_failures_leave_state_unchanged_witness :
    (trackerEdit [⟨"a", 0, none, ∅⟩] 1 "b" IntStr.junk DateInput.dblank).2 =
      [⟨"a", 0, none, ∅⟩] ∧
    (trackerCompleteOn [⟨"a", 0, none, ∅⟩] 1 (DateInput.dgood 9) 5).2 =
      [⟨"a", 0, none, ∅⟩] := by
  constructor
  · exact (tracker_failures_leave_state_unchanged [⟨"a", 0, none, ∅⟩] 1 "b"
      IntStr.junk DateInput.dblank 0).1 (by decide)
  · exact (tracker_failures_leave_state_unchanged [⟨"a", 0, none, ∅⟩] 1 "b"
      IntStr.blank (DateInput.dgood 9) 5).2.2.1 (by decide)

/-- C7 counterexample: the legacy `edit_habit` mutates the habit's name
before validating the streak, so an `invalid_streak` return can leave the
stored state changed — the claim fails on `habit.py`. -/
theorem edit_habit_mutates_on_error :
    (editHabit [⟨"a", 0, none⟩] 0 "b" IntStr.junk DateInput.dblank).1 =
      St.invalid_streak ∧
    (editHabit [⟨"a", 0, none⟩] 0 "b" IntStr.junk DateInput.dblank).2 ≠
      [⟨"a", 0, none⟩] ∧
    (editHabit [⟨"a", 0, none⟩] 0 "b" IntStr.junk DateInput.dblank).2 =
      [⟨"b", 0, none⟩] := by
  decide

/-- C8 (amended): `HabitTracker.edit` reports `nothing` when every provided
field is blank or strictly equal to the stored value (for a stored
non-negative streak, as every reachable stored streak is), and reports
`edited` only when at least one provided field's validated new value differs
from the stored one.  The legacy `edit_habit` does not satisfy the claim; see
the counterexample. -/
theorem tracker_edit_nochange (habits : List THabit) (i : ℤ)
    (name : String) (streak : IntStr) (date : DateInput)
    (ix : Fin habits.length) (hix : idx1 habits i = some ix)
    (hpos : 0 ≤ (habits.get ix).streak) :
    ((name = "" ∨ name.trim = "" ∨ name.trim = (habits.get ix).name) →
     (streak = IntStr.blank ∨ streak = IntStr.num (habits.get ix).streak) →
     (date = DateInput.dblank ∨
       (∃ v, date = DateInput.dgood v ∧ (habits.get ix).lastDone = some v)) →
     (trackerEdit habits i name streak date).1 = St.nothingStatus) ∧
    ((trackerEdit habits i name streak date).1 = St.edited →
      (name ≠ "" ∧ name.trim ≠ "" ∧ name.trim ≠ (habits.get ix).name) ∨
      (∃ s, streak = IntStr.num s ∧ 0 ≤ s ∧ s ≠ (habits.get ix).streak) ∨
      (∃ v, date = DateInput.dgood v ∧ some v ≠ (habits.get ix).lastDone)) := by
  have hnn0 : ∀ hnc : ¬(name ≠ "" ∧ name.trim ≠ "" ∧ name.trim ≠ (habits.get ix).name),
      (if name ≠ "" ∧ name.trim ≠ "" ∧ name.trim ≠ (habits.get ix).name
        then some name.trim else none) = none := fun hnc => if_neg hnc
  have hsn : ¬((habits.get ix).streak < 0) := by omega
  have hse : ¬((habits.get ix).streak ≠ (habits.get ix).streak) := by simp
  constructor
  · intro hn hs hd
    rw [trackerEdit, hix]
    have hnc : ¬(name ≠ "" ∧ name.trim ≠ "" ∧ name.trim ≠ (habits.get ix).name) := by
      tauto
    have hnn := hnn0 hnc
    rcases hs with rfl | rfl
    · rcases hd with rfl | ⟨v, rfl, hv⟩
      · dsimp only
        rw [hnn]
        simp
      · have hvv : ¬(some v ≠ (habits.get ix).lastDone) := by rw [hv]; simp
        dsimp only
        rw [if_neg hvv]
        dsimp only
        rw [hnn]
        simp
    · rcases hd with rfl | ⟨v, rfl, hv⟩
      · dsimp only
        rw [if_neg hsn, if_neg hse]
        dsimp only
        rw [hnn]
        simp
      · have hvv : ¬(some v ≠ (habits.get ix).lastDone) := by rw [hv]; simp
        dsimp only
        rw [if_neg hsn, if_neg hse]
        dsimp only
        rw [if_neg hvv]
        dsimp only
        rw [hnn]
        simp
  · intro hedit
    by_contra hcon
    push_neg at hcon
    obtain ⟨hA, hB, hC⟩ := hcon
    rw [trackerEdit, hix] at hedit
    have hnc : ¬(name ≠ "" ∧ name.trim ≠ "" ∧ name.trim ≠ (habits.get ix).name) := by
      tauto
    have hnn := hnn0 hnc
    cases streak with
    | junk =>
      dsimp only at hedit
      simp at hedit
    | num s =>
      have hseq : s = (habits.get ix).streak := by
        by_contra hsne
        by_cases hneg : s < 0
        · dsimp only at hedit
          rw [if_pos hneg] at hedit
          simp at hedit
        · exact hsne (hB s rfl (by omega))
      subst hseq
      cases date with
      | dblank =>
        dsimp only at hedit
        rw [if_neg hsn, if_neg hse] at hedit
        dsimp only at hedit
        rw [hnn] at hedit
        simp at hedit
      | dbad =>
        dsimp only at hedit
        rw [if_neg hsn, if_neg hse] at hedit
        dsimp only at hedit
        simp at hedit
      | dgood v =>
        have hveq : ¬(some v ≠ (habits.get ix).lastDone) := by
          intro hvne
          exact hvne (hC v rfl)
        dsimp only at hedit
        rw [if_neg hsn, if_neg hse] at hedit
        dsimp only at hedit
        rw [if_neg hveq] at hedit
        dsimp only at hedit
        rw [hnn] at hedit
        simp at hedit
    | blank =>
      cases date with
      | dblank =>
        dsimp only at hedit
        rw [hnn] at hedit
        simp at hedit
      | dbad =>
        dsimp only at hedit
        simp at hedit
      | dgood v =>
        have hveq : ¬(some v ≠ (habits.get ix).lastDone) := by
          intro hvne
          exact hvne (hC v rfl)
        dsimp only at hedit
        rw [if_neg hveq] at hedit
        dsimp only at hedit
        rw [hnn] at hedit
        simp at hedit

theorem tracker_edit_nochange_witness :
    (trackerEdit [⟨"a", 2, some 7, ∅⟩] 1 "" (IntStr.num 2)
      (DateInput.dgood 7)).1 = St.nothingStatus := by
  exact (tracker_edit_nochange [⟨"a", 2, some 7, ∅⟩] 1 "" (IntStr.num 2)
      (DateInput.dgood 7) ⟨0, by decide⟩ (by decide) (by decide)).1
    (Or.inl rfl) (Or.inr rfl) (Or.inr ⟨7, rfl, rfl⟩)

/-- C8 counterexample: the legacy `edit_habit` reports `edited` even when the
provided name is strictly equal to the stored name and nothing changes. -/
theorem edit_habit_edited_without_change :
    (editHabit [⟨"a", 5, none⟩] 0 "a" IntStr.blank DateInput.dblank).1 =
      St.edited ∧
    (editHabit [⟨"a", 5, none⟩] 0 "a" IntStr.blank DateInput.dblank).2 =
      [⟨"a", 5, none⟩] := by
  decide

theorem parseAll_none {dates : List DStr} {j : ℕ} (hmem : DStr.bad j ∈ dates) :
    parseAll dates = none := by
  induction dates with
  | nil => cases hmem
  | cons x xs ih =>
    rcases List.mem_cons.mp hmem with rfl | hxs
    · simp [parseAll, parseDStr]
    · cases hp : parseDStr x <;> simp [parseAll, hp, ih hxs]

/-- C9 (amended): the legacy readers degrade gracefully on a malformed stored
date — `days_since` returns `None` and `mark_habit_done` treats the value as
never done and returns normally — but `HabitTracker._days_since_from_dates`
has no `try/except` and propagates the parse fault as soon as any stored
completion string is malformed. -/
theorem malformed_stored_dates (j : ℕ) (today : ℤ) (h : LHabit)
    (dates : List DStr)
    (hbad : h.lastDone = some (DStr.bad j))
    (hmem : DStr.bad j ∈ dates) :
    daysSinceLegacy (some (DStr.bad j)) today = none ∧
    (markHabitDone h today).1 = St.reset_to_1 ∧
    daysSinceFromDatesStr dates today = Except.error () := by
  refine ⟨rfl, ?_, ?_⟩
  · rw [markHabitDone, hbad]
    simp [parseDStr]
  · cases dates with
    | nil => cases hmem
    | cons x xs =>
      simp only [daysSinceFromDatesStr, parseAll_none hmem]

theorem malformed_stored_dates_witness :
    daysSinceLegacy (some (DStr.bad 0)) 7 = none ∧
    (markHabitDone ⟨"a", 3, some (DStr.bad 0)⟩ 7).1 = St.reset_to_1 ∧
    daysSinceFromDatesStr [DStr.bad 0, DStr.ok 5] 7 = Except.error () := by
  exact malformed_stored_dates 0 7 ⟨"a", 3, some (DStr.bad 0)⟩
    [DStr.bad 0, DStr.ok 5] rfl (by simp)

/-- C9 counterexample: `HabitTracker._days_since_from_dates` does not return
normally on a malformed stored date — it propagates the parse fault instead
of treating the value as absent. -/
theorem tracker_days_since_raises :
    daysSinceFromDatesStr [DStr.bad 0] 0 = Except.error () := by
  rfl

/-! ## Stats engine (`HabitTracker.stats`, `HabitRepo.fetch_completions_between`)

The completion log is the `completions` table: a list of
`(habit_id, done_on)` pairs.  Python dicts become functions built by
pointwise update; a `defaultdict(int)` becomes a function into `ℕ` that is 0
where never bumped (a key absent from the final dict has count 0). -/

/-- `fetch_completions_between`: SQL `done_on >= ? AND done_on <= ?` on the
TEXT column, i.e. lexicographic comparison of the stored `DD-MM-YYYY`
strings.  SQL orders the rows by text date then habit id; all maps derived
from them below are insensitive to row order, so the filter keeps log
order. -/
def fetchCompletionsBetween (log : List (ℕ × ℤ)) (startD endD : ℤ) :
    List (ℕ × ℤ) :=
  log.filter (fun r => strLe startD r.2 && strLe r.2 endD)

structure StatsReport where
  windowStart : ℤ
  windowEnd : ℤ
  perDay : ℤ → ℕ
  perHabit : String → ℕ
  curStreak : String → Option ℕ
  lngStreak : String → Option ℕ

/-- `id_to_name = {h["id"]: h["name"] for h in habits}`; ids are unique (the
table's primary key), so iteration order is the habits order. -/
def idToName (habits : List (ℕ × String)) : ℕ → Option String :=
  habits.foldl (fun f p => fun x => if x = p.1 then some p.2 else f x)
    (fun _ => none)

/-- `HabitTracker.stats`: window bounds `[today - (days-1), today]`, rows from
the text-range query, per-day and per-habit counts over those rows, and
per-habit current/longest streaks computed from the per-habit date sets
grouped *from those same rows*. -/
def statsZ (habits : List (ℕ × String)) (log : List (ℕ × ℤ))
    (days today : ℤ) : StatsReport :=
  let startD := today - (days - 1)
  let rows := fetchCompletionsBetween log startD today
  let i2n := idToName habits
  let nameOf : ℕ → String := fun hid => (i2n hid).getD ("#" ++ toString hid)
  let perDay : ℤ → ℕ :=
    rows.foldl (fun f r => fun x => if x = r.2 then f x + 1 else f x)
      (fun _ => 0)
  let perHabit : String → ℕ :=
    rows.foldl (fun f r => fun x => if x = nameOf r.1 then f x + 1 else f x)
      (fun _ => 0)
  let byHabit : ℕ → Finset ℤ :=
    rows.foldl (fun g r => fun x => if x = r.1 then insert r.2 (g x) else g x)
      (fun _ => (∅ : Finset ℤ))
  let cur : String → Option ℕ :=
    habits.foldl
      (fun f p => fun x =>
        if x = p.2 then some (currentStreakZ (byHabit p.1) today) else f x)
      (fun _ => none)
  let lng : String → Option ℕ :=
    habits.foldl
      (fun f p => fun x =>
        if x = p.2 then some (longestStreakZ (byHabit p.1)) else f x)
      (fun _ => none)
  { windowStart := startD, windowEnd := today, perDay := perDay,
    perHabit := perHabit, curStreak := cur, lngStreak := lng }

/-- The set of a habit's completions that survive the text-range window
query. -/
def windowDates (log : List (ℕ × ℤ)) (days today : ℤ) (hid : ℕ) : Finset ℤ :=
  (((fetchCompletionsBetween log (today - (days - 1)) today).filter
      (fun r => decide (r.1 = hid))).map Prod.snd).toFinset

theorem foldl_byHabit (rows : List (ℕ × ℤ)) (g : ℕ → Finset ℤ) (hid : ℕ) :
    (rows.foldl (fun g r => fun x => if x = r.1 then insert r.2 (g x) else g x)
        g) hid
      = ((rows.filter (fun r => decide (r.1 = hid))).map Prod.snd).toFinset
          ∪ g hid := by
  induction rows generalizing g with
  | nil => simp
  | cons r rs ih =>
    rw [List.foldl_cons, ih]
    by_cases hr : r.1 = hid
    · subst hr
      rw [if_pos rfl]
      rw [List.filter_cons_of_pos (by simp)]
      rw [List.map_cons]
      ext a
      simp only [List.toFinset_cons, Finset.mem_union, Finset.mem_insert,
        List.mem_toFinset]
      tauto
    · rw [if_neg (fun hcon => hr hcon.symm)]
      rw [List.filter_cons_of_neg (by simp [hr])]

theorem foldl_dict_notmem {β : Type} (habits : List (ℕ × String))
    (v : ℕ × String → β) (f : String → Option β) (name : String)
    (h : ∀ p ∈ habits, p.2 ≠ name) :
    (habits.foldl (fun f p => fun x => if x = p.2 then some (v p) else f x)
        f) name = f name := by
  induction habits generalizing f with
  | nil => rfl
  | cons p ps ih =>
    rw [List.foldl_cons, ih _ (fun q hq => h q (List.mem_cons_of_mem p hq))]
    exact if_neg (fun hcon => h p (List.mem_cons_self p ps) hcon.symm)

theorem foldl_dict_mem {β : Type} (habits : List (ℕ × String))
    (v : ℕ × String → β) (f : String → Option β) (hid : ℕ) (name : String)
    (hmem : (hid, name) ∈ habits)
    (hnames : (habits.map Prod.snd).Nodup) :
    (habits.foldl (fun f p => fun x => if x = p.2 then some (v p) else f x)
        f) name = some (v (hid, name)) := by
  induction habits generalizing f with
  | nil => cases hmem
  | cons p ps ih =>
    rw [List.foldl_cons]
    rcases List.mem_cons.mp hmem with heq | hmem'
    · rw [foldl_dict_notmem]
      · rw [← heq]
        exact if_pos rfl
      · intro q hq hqname
        rw [List.map_cons, List.nodup_cons] at hnames
        apply hnames.1
        have hp2 : p.2 = name := by rw [← heq]
        rw [hp2, ← hqname]
        exact List.mem_map_of_mem Prod.snd hq
    · rw [List.map_cons, List.nodup_cons] at hnames
      exact ih _ hmem' hnames.2

/-- C1 (amended): the per-habit current/longest streaks in the stats report
are computed from only that habit's completions returned by the window's
text-range query (`windowDates`), not from its entire completion history; in
particular a habit none of whose completions passes the window filter is
reported with both streaks 0 regardless of its history. -/
theorem stats_streaks_window_clipped (habits : List (ℕ × String))
    (log : List (ℕ × ℤ)) (days today : ℤ) (hid : ℕ) (name : String)
    (hmem : (hid, name) ∈ habits)
    (hnames : (habits.map Prod.snd).Nodup) :
    (statsZ habits log days today).curStreak name
      = some (currentStreakZ (windowDates log days today hid) today) ∧
    (statsZ habits log days today).lngStreak name
      = some (longestStreakZ (windowDates log days today hid)) ∧
    ((∀ d : ℤ, (hid, d) ∈ log →
        ¬(strLe (today - (days - 1)) d = true ∧ strLe d today = true)) →
      (statsZ habits log days today).curStreak name = some 0 ∧
      (statsZ habits log days today).lngStreak name = some 0) := by
  have hby : ∀ h' : ℕ,
      ((fetchCompletionsBetween log (today - (days - 1)) today).foldl
        (fun g r => fun x => if x = r.1 then insert r.2 (g x) else g x)
        (fun _ => (∅ : Finset ℤ))) h' = windowDates log days today h' := by
    intro h'
    rw [foldl_byHabit, windowDates]
    exact Finset.union_empty _
  have h1 : (statsZ habits log days today).curStreak name
      = some (currentStreakZ (windowDates log days today hid) today) := by
    rw [statsZ]
    dsimp only
    rw [foldl_dict_mem _ _ _ hid name hmem hnames]
    rw [hby]
  have h2 : (statsZ habits log days today).lngStreak name
      = some (longestStreakZ (windowDates log days today hid)) := by
    rw [statsZ]
    dsimp only
    rw [foldl_dict_mem _ _ _ hid name hmem hnames]
    rw [hby]
  refine ⟨h1, h2, ?_⟩
  intro hout
  have hemp : windowDates log days today hid = ∅ := by
    ext a
    simp only [windowDates, List.mem_toFinset, List.mem_map, List.mem_filter,
      fetchCompletionsBetween, Finset.not_mem_empty, iff_false]
    rintro ⟨r, ⟨⟨hrlog, hrwin⟩, hrhid⟩, rfl⟩
    rw [decide_eq_true_eq] at hrhid
    rw [Bool.and_eq_true] at hrwin
    subst hrhid
    exact hout r.2 hrlog ⟨hrwin.1, hrwin.2⟩
  constructor
  · rw [h1, hemp]
    simp [currentStreakZ]
  · rw [h2, hemp, longest_empty]

unseal streakLoop in
theorem stats_streaks_window_clipped_witness :
    (statsZ [(1, "gym")] [(1, 20118)] 10 20118).curStreak "gym"
      = some (currentStreakZ (windowDates [(1, 20118)] 10 20118 1) 20118) ∧
    currentStreakZ (windowDates [(1, 20118)] 10 20118 1) 20118 = 1 := by
  constructor
  · exact (stats_streaks_window_clipped [(1, "gym")] [(1, 20118)] 10 20118 1
      "gym" (by simp) (by simp)).1
  · decide

unseal chainFwd streakLoop in
/-- C1 counterexample: habit `gym` has the completion history
`{01..05-01-2020}` (epoch days 18262–18266, a run of five) plus
`{30-01-2025}` (epoch day 20118); with `today = 30-01-2025` and a 10-day
window, `stats` reports longest streak 1, not the entire-history value 5:
the streaks in the report are window-clipped. -/
theorem stats_streak_not_entire_history :
    (statsZ [(1, "gym")]
        [(1, 18262), (1, 18263), (1, 18264), (1, 18265), (1, 18266), (1, 20118)]
        10 20118).lngStreak "gym"
      ≠ some (longestStreakZ
          ({18262, 18263, 18264, 18265, 18266, 20118} : Finset ℤ)) ∧
    (statsZ [(1, "gym")]
        [(1, 18262), (1, 18263), (1, 18264), (1, 18265), (1, 18266), (1, 20118)]
        10 20118).lngStreak "gym" = some 1 ∧
    longestStreakZ ({18262, 18263, 18264, 18265, 18266, 20118} : Finset ℤ)
      = 5 := by
  decide

unseal streakLoop in
/-- C2: the window bounds are the calendar interval
`[today - (days-1), today]`, but the query filters by *text* order of the
`DD-MM-YYYY` strings, which differs from calendar order.  With
`today = 12-10-2026` (epoch 20738) and `days = 30` the window starts at
`13-09-2026`, and the string `"12-10-2026"` sorts *before* `"13-09-2026"`,
so the completion made *today* is counted in neither `per_day` nor
`per_habit` (and the current streak is reported 0) although its calendar
date lies inside the window; conversely with a 10-day window ending
`30-01-2025` (epoch 20118), a completion of `25-12-2024` (epoch 20082, 27
days before the window start) *is* counted in `per_day`. -/
theorem stats_text_window_miscounts :
    civil 20738 = (12, 10, 2026) ∧
    civil (20738 - 29) = (13, 9, 2026) ∧
    (statsZ [(1, "run")] [(1, 20738)] 30 20738).windowStart = 20738 - 29 ∧
    (statsZ [(1, "run")] [(1, 20738)] 30 20738).windowEnd = 20738 ∧
    (statsZ [(1, "run")] [(1, 20738)] 30 20738).perDay 20738 = 0 ∧
    (statsZ [(1, "run")] [(1, 20738)] 30 20738).perHabit "run" = 0 ∧
    (statsZ [(1, "run")] [(1, 20738)] 30 20738).curStreak "run" = some 0 ∧
    civil 20082 = (25, 12, 2024) ∧
    civil (20118 - 9) = (21, 1, 2025) ∧
    civil 20118 = (30, 1, 2025) ∧
    (statsZ [(1, "run")] [(1, 20082)] 10 20118).perDay 20082 = 1 := by
  decide

end HabitProof
